import Mathlib

/-!
Shallow embedding of `src/sanitize.py` (run2fail/hbcbz): the CBZ sanitize
pipeline — extraction with a path-traversal check and first-wins duplicate
skip, per-image resizing with a keep-if-smaller acceptance rule, and
repackaging — together with theorems settling the frozen claims about its
specification.

Modelling conventions:
* Zip member names are modelled as their `'/'`-separated component lists
  (the result of splitting the raw member string on `'/'`);
  `member.startswith('/')` corresponds to the first component being `""`,
  and `member.startswith('..')` to the first component beginning with two
  dot characters (a `".."` cannot span a `'/'`).
* PIL (`Image.open`, `Image.thumbnail`, `Image.save`) is environmental
  library code: decoding is modelled by the `FileData.image` tag,
  re-encoding by an abstract `Env.encode` (returning the byte size of the
  candidate, or `none` when the format cannot be re-emitted, in which case
  the source's `img.save` raises), and the pixel-dimension arithmetic of
  `Image.thumbnail` (Pillow 7.x–9.x, the versions accepting the
  `Image.ANTIALIAS` argument used at sanitize.py:126) is embedded exactly
  over `Nat`, replacing its float quotients by the corresponding exact
  rational comparisons (exact for realistic pixel dimensions).
* Byte sizes of the zip archives the repackager writes are abstract
  (`Env.zipSize`): the model never needs to know how deflate compresses.
* `os.path.exists(tmpdir + '/' + member)` (the duplicate check) is modelled
  on the member's sanitised relative path; the two coincide for member
  names free of `''`/`'.'`/`'..'` components, which is the territory of
  every duplicate-handling statement proved below.
-/

namespace Sanitize

/-- A path inside the working directory / an archive-relative member name,
as its `'/'`-separated component list. -/
abbrev Path := List String

/-- An image file as PIL sees it: pixel dimensions, detected format, an
abstract pixel-content identifier, and its byte size on disk. -/
structure ImgFile where
  width : Nat
  height : Nat
  fmt : Nat
  px : Nat
  size : Nat
deriving DecidableEq

/-- A file materialised in the working tree: either a decodable image or an
opaque non-image byte string (on which `PIL.Image.open` raises `OSError`,
sanitize.py:116). -/
inductive FileData where
  | image (im : ImgFile)
  | nonImage (bytes : List Nat)
deriving DecidableEq

/-- The working-directory contents: files in creation order, plus the
directories implicitly created (`zipfile.ZipFile.extract` creates the
intermediate directories of each member it writes). -/
structure Tree where
  files : List (Path × FileData)
  dirs : List Path
deriving DecidableEq

def emptyTree : Tree := ⟨[], []⟩

/-- The environmental operations of PIL and zipfile that the pipeline
calls: `encode im q` is the byte size of re-encoding `im` at quality `q` in
its own format (`none` models `img.save` raising for a format the encoder
cannot re-emit, sanitize.py:127); `resamplePx im w h` is the abstract pixel
content produced by `Image.thumbnail`'s resampling; `zipSize entries` is
the byte size of the deflate zip holding `entries`. -/
structure Env where
  encode : ImgFile → Nat → Option Nat
  resamplePx : ImgFile → Nat → Nat → Nat
  zipSize : List (Path × FileData) → Nat

/-- `int(...)` on a string of decimal digits (sanitize.py:40,44). -/
def digitsVal (cs : List Char) : Nat :=
  cs.foldl (fun a c => 10 * a + (c.toNat - 48)) 0

/-- `convert_resize` (sanitize.py:33–46): match `(\d+)?x(\d+)?` at the
start of the resize string; a missing group leaves the axis at `-1`
(`int(None)` raises `TypeError`, caught and mapped to `-1`); a string with
no match is `sys.exit(1)`, modelled as `none`.  Backtracking cannot help
the regex: only the maximal leading digit run can be followed by the
mandatory `x`, since every shorter split leaves a digit where `x` must
stand. -/
def convert_resize (s : String) : Option (Int × Int) :=
  let cs := s.data
  let d1 := cs.takeWhile Char.isDigit
  match cs.dropWhile Char.isDigit with
  | 'x' :: rest =>
    let d2 := rest.takeWhile Char.isDigit
    some (if d1.isEmpty then -1 else (digitsVal d1 : Int),
          if d2.isEmpty then -1 else (digitsVal d2 : Int))
  | _ => none

/-- The fits test of sanitize.py:119–120: an axis with a non-positive limit
is unconstrained; a constrained axis is satisfied iff the image's extent on
it is at most the limit. -/
def fitsBox (mx my : Int) (w h : Nat) : Bool :=
  (decide (mx ≤ 0) || decide ((w : Int) ≤ mx)) &&
  (decide (my ≤ 0) || decide ((h : Int) ≤ my))

/-- `min([v for v in [limit, dim] if v > 0])` (sanitize.py:124–125) for an
image dimension `dim ≥ 1` (on a degenerate `dim = 0` with `limit ≤ 0` the
source would raise on the empty list; image dimensions are positive). -/
def minPos (limit : Int) (dim : Nat) : Nat :=
  if 0 < limit ∧ limit < (dim : Int) then limit.toNat else dim

/-- Ceiling division on naturals, `math.ceil(a / b)`. -/
def cdiv (a b : Nat) : Nat := (a + b - 1) / b

/-- Pillow `Image.thumbnail`'s
`round_aspect(y * aspect, key=lambda n: abs(aspect - n / y))`: the nearest
integer to `bh * w / h` (ties go to the floor, as Python's `min` keeps the
first minimum), clamped to at least 1. -/
def roundAspectW (w h bh : Nat) : Nat :=
  let a := bh * w
  max (if 2 * (a % h) ≤ h then a / h else a / h + 1) 1

/-- Pillow `Image.thumbnail`'s
`round_aspect(x / aspect, key=lambda n: 0 if n == 0 else abs(aspect - x / n))`:
chooses between floor and ceiling of `bw * h / w` by which yields an aspect
closer to `w / h` (`n = 0` compares as best and is then clamped to 1); the
comparison `abs(aspect - x/n1) <= abs(aspect - x/n2)` becomes
`(a % w) * n2 ≤ (w - a % w) * n1` after clearing the denominators. -/
def roundAspectH (w h bw : Nat) : Nat :=
  let a := bw * h
  let n1 := a / w
  let n2 := cdiv a w
  if n1 = 0 then 1
  else if n1 = n2 then n1
  else if (a % w) * n2 ≤ (w - a % w) * n1 then n1 else n2

/-- The pixel-size computation of Pillow's `Image.thumbnail((bw, bh))`
(7.x–9.x) on an image of size `(w, h)`: a no-op when the image already fits
the box; otherwise one axis is set to its box value and the other is
rounded from the exact aspect-preserving rational.  The float test
`x / y >= aspect` is the exact `bw * h ≥ bh * w`. -/
def thumbDims (w h bw bh : Nat) : Nat × Nat :=
  if bw ≥ w ∧ bh ≥ h then (w, h)
  else if bh * w ≤ bw * h then (roundAspectW w h bh, bh)
  else (bw, roundAspectH w h bw)

/-- Lines 119–126 of sanitize.py: the pixel size an image of size `(w, h)`
has after the resize step with limits `(mx, my)` — unchanged when it fits,
otherwise `img.thumbnail((width, height))` with
`width = min([v for v in [mx, w] if v > 0])` and symmetrically `height`. -/
def resizeDims (mx my : Int) (w h : Nat) : Nat × Nat :=
  if fitsBox mx my w h then (w, h)
  else thumbDims w h (minPos mx w) (minPos my h)

/-- `member.startswith('..')`, expressed on the member's first
`'/'`-component. -/
def startsDotDot (c : String) : Bool :=
  match c.data with
  | '.' :: '.' :: _ => true
  | _ => false

/-- The security check of sanitize.py:82: the raw member name starts with
`'/'` (first component `""`) or with `'..'`. -/
def badName (n : Path) : Bool :=
  match n with
  | [] => false
  | c :: _ => decide (c = "") || startsDotDot c

/-- The name sanitisation `zipfile.ZipFile.extract` applies before writing
(`ZipFile._extract_member`): every component that is `''`, `'.'` or `'..'`
is dropped, so the write always lands under the destination directory. -/
def sanitizeName (n : Path) : Path :=
  n.filter (fun c => decide (c ≠ "" ∧ c ≠ "." ∧ c ≠ ".."))

/-- The intermediate directories `zipfile` creates when materialising a
file at relative path `p`: every proper initial segment of `p`. -/
def ancestors : Path → List Path
  | [] => []
  | [_] => []
  | c :: rest => [c] :: (ancestors rest).map (c :: ·)

/-- `os.path.exists` on a path relative to the working root
(sanitize.py:84).  When a strict ancestor of `p` exists as a regular file,
the real call returns `False` (resolution fails with `ENOTDIR`), matching
this model on the trees extraction can build (a path below a file is never
materialised). -/
def pathExists (t : Tree) (p : Path) : Bool :=
  t.files.any (fun f => decide (f.1 = p)) || t.dirs.any (fun d => decide (d = p))

/-- Whether a regular file sits at path `q` in the working tree. -/
def isFile (t : Tree) (q : Path) : Bool :=
  t.files.any (fun f => decide (f.1 = q))

inductive ExtractErr where
  | security
  | writeErr
  | notADirErr
deriving DecidableEq

/-- One iteration of the loop in `extract` (sanitize.py:80–87): the
security check, then the duplicate skip, then materialisation (which also
creates the intermediate directories).  Two write failures escape every
handler in the source and are modelled as errors: a name that sanitises to
the empty path makes `zipfile` try to open the destination directory
itself (an uncaught `OSError`, `writeErr`); a name one of whose parent
components already exists as a regular file makes `zipfile`'s
`open`/`os.makedirs` raise an uncaught `NotADirectoryError`
(`notADirErr`) — the duplicate check does not fire first because
`os.path.exists` is `False` on a path below a file. -/
def extractEntry (t : Tree) (e : Path × FileData) : Except ExtractErr Tree :=
  if badName e.1 then .error .security
  else
    let p := sanitizeName e.1
    if pathExists t p then .ok t
    else if p.isEmpty then .error .writeErr
    else if (ancestors p).any (fun q => isFile t q) then .error .notADirErr
    else .ok ⟨t.files ++ [(p, e.2)], t.dirs ++ ancestors p⟩

/-- The loop of `extract` over the archive's member list, keeping the
partially built tree when an exception aborts it (the raised
`SecurityException` is not caught by the surrounding
`except zipfile.BadZipFile`). -/
def extractList (t : Tree) : List (Path × FileData) → Tree × Option ExtractErr
  | [] => (t, none)
  | e :: rest =>
    match extractEntry t e with
    | .error err => (t, some err)
    | .ok t' => extractList t' rest

/-- The image held in memory right before `img.save` (sanitize.py:119–126):
resized by `thumbnail` when it does not fit the box (format preserved, new
pixel content from resampling), untouched otherwise (`thumbnail` returns
without resizing when the computed size equals the current size). -/
def candidateImg (env : Env) (mx my : Int) (im : ImgFile) : ImgFile :=
  let d := resizeDims mx my im.width im.height
  if d = (im.width, im.height) then im
  else { im with width := d.1, height := d.2, px := env.resamplePx im d.1 d.2 }

/-- Lines 113–133 of sanitize.py for one regular file: a non-image is left
untouched (the `OSError` from `Image.open` is caught and the loop
continues); for an image the candidate is re-encoded at the configured
quality (`none` models `img.save` raising, which nothing catches), the
candidate replaces the file iff it is strictly smaller in bytes
(`size_before <= size_after` discards the candidate), and is discarded
otherwise. -/
def resizeFile (env : Env) (mx my : Int) (q : Nat) : FileData → Except Unit FileData
  | .nonImage bs => .ok (.nonImage bs)
  | .image im =>
    let im2 := candidateImg env mx my im
    match env.encode im2 q with
    | none => .error ()
    | some s =>
      if im.size ≤ s then .ok (.image im)
      else .ok (.image { im2 with size := s })

/-- The recursive walk of `resize` (sanitize.py:107–133) over the working
tree; each file is processed independently and in place, so the walk is a
traversal of the file list (the source's name-sorted recursion only fixes
which file's failure fires first). -/
def resizeTree (env : Env) (mx my : Int) (q : Nat) (t : Tree) :
    Except Unit Tree := do
  let fs ← t.files.mapM (fun f => do
    let d ← resizeFile env mx my q f.2
    pure (f.1, d))
  pure { t with files := fs }

/-- A file that may sit at an archive path: `parsed = none` models a
container `zipfile` cannot parse (`BadZipFile`); `bytes` is its on-disk
size. -/
structure SrcFile where
  parsed : Option (List (Path × FileData))
  bytes : Nat
deriving DecidableEq

/-- The two filesystem locations `compress` touches: the archive's own path
and the derived `<stem>-orig<ext>` backup path (`add_filename_suffix`,
sanitize.py:91–93). -/
structure FsState where
  atPath : Option SrcFile
  atBackup : Option SrcFile
deriving DecidableEq

/-- `compress` (sanitize.py:95–105): rename the original onto the backup
path — POSIX `os.rename` silently replaces any file already there — then
write the new deflate archive holding every file of the working tree under
its tree-relative name. -/
def compress (env : Env) (fs : FsState) (t : Tree) : FsState :=
  { atPath := some ⟨some t.files, env.zipSize t.files⟩, atBackup := fs.atPath }

inductive PErr where
  | security
  | writeErr
  | notADirErr
  | saveErr
deriving DecidableEq

/-- One iteration of `main`'s loop (sanitize.py:140–148) for the archive at
one path: skip when the path is not a regular file; otherwise extract (a
`BadZipFile` is caught inside `extract` and leaves the tree empty), resize,
compress.  Any uncaught exception — `SecurityException`, a write failure,
`img.save` failing — is `.error` and aborts the whole process. -/
def processOne (env : Env) (mx my : Int) (q : Nat) (fs : FsState) :
    Except PErr FsState :=
  match fs.atPath with
  | none => .ok fs
  | some src =>
    let r :=
      match src.parsed with
      | none => (emptyTree, none)
      | some es => extractList emptyTree es
    match r.2 with
    | some .security => .error .security
    | some .writeErr => .error .writeErr
    | some .notADirErr => .error .notADirErr
    | none =>
      match resizeTree env mx my q r.1 with
      | .error _ => .error .saveErr
      | .ok t2 => .ok (compress env fs t2)

/-- The batch loop of `main` (sanitize.py:140–148): archives processed in
order until an uncaught exception aborts the process; later archives are
then never touched. -/
def runBatch (env : Env) (mx my : Int) (q : Nat) :
    List FsState → List FsState × Option PErr
  | [] => ([], none)
  | fs :: rest =>
    match processOne env mx my q fs with
    | .error e => ([], some e)
    | .ok fs' =>
      let r := runBatch env mx my q rest
      (fs' :: r.1, r.2)

/-! ### Helper lemmas shared across the claims -/

/-- Whenever `main`'s per-archive body runs to completion on an accessible
input, the state afterwards has the original at the backup path and a
freshly written repack (of some entry list, at the abstract deflate size)
at the original path — there is no comparison gating the replacement. -/
theorem processOne_ok_shape (env : Env) (mx my : Int) (q : Nat) (fs : FsState)
    (src : SrcFile) (h : fs.atPath = some src) (fs' : FsState)
    (h2 : processOne env mx my q fs = .ok fs') :
    fs'.atBackup = some src ∧ ∃ es, fs'.atPath = some ⟨some es, env.zipSize es⟩ := by
  obtain ⟨ap, ab⟩ := fs
  cases h
  unfold processOne at h2
  dsimp only at h2
  split at h2
  · exact absurd h2 (by simp)
  · exact absurd h2 (by simp)
  · exact absurd h2 (by simp)
  · split at h2
    · exact absurd h2 (by simp)
    · rename_i t2 _
      cases h2
      exact ⟨rfl, t2.files, rfl⟩

/-- An environment whose re-encode always yields a candidate one byte
larger than the original (so every image is kept) and whose repacked
archives always occupy 999 bytes — deflate may well produce an archive
larger than the original container. -/
def bigZipEnv : Env :=
  ⟨fun im _ => some (im.size + 1), fun im _ _ => im.px, fun _ => 999⟩

/-! ### C1 — non-image members are claimed to be stripped -/

/-- C1: "every member that is not a decodable image is stripped: it is
absent from the repacked output archive."  The code does the opposite: a
member on which `Image.open` raises is skipped by `resize`
(sanitize.py:116–118) and left in the working tree, and `compress`
(sanitize.py:99–105) packs every file of the tree.  Evaluating the
pipeline on an archive holding the single non-image member `notes.txt`
shows that member in the repacked archive, contradicting the claim and
the module docstring's feature "Removes non-image files"
(sanitize.py:17). -/
theorem c1_nonimage_member_kept :
    processOne bigZipEnv (-1) (-1) 75
        ⟨some ⟨some [(["notes.txt"], .nonImage [1, 2, 3])], 30⟩, none⟩ =
      .ok ⟨some ⟨some [(["notes.txt"], .nonImage [1, 2, 3])], 999⟩,
           some ⟨some [(["notes.txt"], .nonImage [1, 2, 3])], 30⟩⟩ := rfl

/-! ### C2 — replacement is claimed to be conditional on a smaller, valid
result -/

/-- C2 counterexample: an original container of 10 bytes is repacked into
a 999-byte archive, yet the repack still replaces the original at its
path and the original is moved to the backup location — the
"only if the result is smaller" gate does not exist in `compress`
(sanitize.py:95–105). -/
theorem c2_counterexample :
    processOne bigZipEnv (-1) (-1) 75
        ⟨some ⟨some [(["a"], .nonImage [7])], 10⟩, none⟩ =
      .ok ⟨some ⟨some [(["a"], .nonImage [7])], 999⟩,
           some ⟨some [(["a"], .nonImage [7])], 10⟩⟩ ∧
    ¬ 999 < 10 ∧
    (⟨some [(["a"], FileData.nonImage [7])], 999⟩ : SrcFile) ≠
      ⟨some [(["a"], FileData.nonImage [7])], 10⟩ :=
  ⟨rfl, by decide, by decide⟩

/-- C2 (amended): whenever the pipeline processes an accessible archive to
completion, the repacked archive unconditionally replaces the original at
its path — no size or validity comparison is made — and the original is
moved to the `-orig` backup path. -/
theorem c2_unconditional_replace (env : Env) (mx my : Int) (q : Nat)
    (fs : FsState) (src : SrcFile) (h : fs.atPath = some src) (fs' : FsState)
    (h2 : processOne env mx my q fs = .ok fs') :
    fs'.atBackup = some src ∧ ∃ es, fs'.atPath = some ⟨some es, env.zipSize es⟩ :=
  processOne_ok_shape env mx my q fs src h fs' h2

/-- C2 witness: the amended statement at a concrete 10-byte archive. -/
theorem c2_witness :
    (⟨some ⟨some [], 10⟩, none⟩ : FsState).atPath = some ⟨some [], 10⟩ ∧
    processOne bigZipEnv (-1) (-1) 75 ⟨some ⟨some [], 10⟩, none⟩ =
      .ok ⟨some ⟨some [], 999⟩, some ⟨some [], 10⟩⟩ ∧
    ((⟨some ⟨some [], 999⟩, some ⟨some [], 10⟩⟩ : FsState).atBackup =
        some ⟨some [], 10⟩ ∧
      ∃ es, (⟨some ⟨some [], 999⟩, some ⟨some [], 10⟩⟩ : FsState).atPath =
        some ⟨some es, bigZipEnv.zipSize es⟩) :=
  ⟨rfl, rfl,
    c2_unconditional_replace bigZipEnv (-1) (-1) 75 ⟨some ⟨some [], 10⟩, none⟩
      ⟨some [], 10⟩ rfl ⟨some ⟨some [], 999⟩, some ⟨some [], 10⟩⟩ rfl⟩

/-! ### C4 — a pre-existing backup is claimed to abort repackaging -/

/-- C4 counterexample: a 5-byte file already occupies the backup path;
repackaging neither aborts nor preserves it — `os.rename`
(sanitize.py:97) silently replaces it with the original, and the repack
lands at the original path. -/
theorem c4_counterexample :
    processOne bigZipEnv (-1) (-1) 75
        ⟨some ⟨some [(["a"], .nonImage [7])], 10⟩, some ⟨none, 5⟩⟩ =
      .ok ⟨some ⟨some [(["a"], .nonImage [7])], 999⟩,
           some ⟨some [(["a"], .nonImage [7])], 10⟩⟩ ∧
    some (⟨none, 5⟩ : SrcFile) ≠
      some (⟨some [(["a"], FileData.nonImage [7])], 10⟩ : SrcFile) :=
  ⟨rfl, by decide⟩

/-- C4 (amended): when a file already exists at the derived backup path,
repackaging does not abort: the original is renamed onto the backup path
unconditionally, silently overwriting whatever was there. -/
theorem c4_backup_clobbered (env : Env) (mx my : Int) (q : Nat)
    (fs : FsState) (src b : SrcFile) (h : fs.atPath = some src)
    (_hb : fs.atBackup = some b) (fs' : FsState)
    (h2 : processOne env mx my q fs = .ok fs') :
    fs'.atBackup = some src :=
  (processOne_ok_shape env mx my q fs src h fs' h2).1

/-- C4 witness: the amended statement at a concrete state whose backup
path is already occupied. -/
theorem c4_witness :
    (⟨some ⟨some [], 10⟩, some ⟨none, 5⟩⟩ : FsState).atPath = some ⟨some [], 10⟩ ∧
    (⟨some ⟨some [], 10⟩, some ⟨none, 5⟩⟩ : FsState).atBackup = some ⟨none, 5⟩ ∧
    processOne bigZipEnv (-1) (-1) 75 ⟨some ⟨some [], 10⟩, some ⟨none, 5⟩⟩ =
      .ok ⟨some ⟨some [], 999⟩, some ⟨some [], 10⟩⟩ ∧
    (⟨some ⟨some [], 999⟩, some ⟨some [], 10⟩⟩ : FsState).atBackup =
      some ⟨some [], 10⟩ :=
  ⟨rfl, rfl, rfl,
    c4_backup_clobbered bigZipEnv (-1) (-1) 75 ⟨some ⟨some [], 10⟩, some ⟨none, 5⟩⟩
      ⟨some [], 10⟩ ⟨none, 5⟩ rfl rfl
      ⟨some ⟨some [], 999⟩, some ⟨some [], 10⟩⟩ rfl⟩

/-! ### C5 — a corrupt container is claimed to cause no filesystem
mutation -/

/-- C5 counterexample: on a container `zipfile` cannot parse, `extract`
merely logs (sanitize.py:88–89) and `main` continues into `compress`
(sanitize.py:146–148): the original is renamed to the backup path and an
empty archive is written at the original path — the filesystem is
mutated. -/
theorem c5_counterexample :
    processOne bigZipEnv (-1) (-1) 75 ⟨some ⟨none, 50⟩, none⟩ =
      .ok ⟨some ⟨some [], 999⟩, some ⟨none, 50⟩⟩ ∧
    (⟨some ⟨none, 50⟩, none⟩ : FsState) ≠
      ⟨some ⟨some [], 999⟩, some ⟨none, 50⟩⟩ :=
  ⟨rfl, by decide⟩

/-- C5 (amended): when the input container cannot be opened, the batch
does continue (no exception escapes), but the pipeline still repackages:
the original is renamed to the `-orig` backup and an empty archive is
written at the original path. -/
theorem c5_corrupt_repacks_empty (env : Env) (mx my : Int) (q : Nat)
    (fs : FsState) (src : SrcFile) (h : fs.atPath = some src)
    (hc : src.parsed = none) :
    processOne env mx my q fs = .ok ⟨some ⟨some [], env.zipSize []⟩, some src⟩ := by
  obtain ⟨ap, ab⟩ := fs
  cases h
  obtain ⟨pr, b⟩ := src
  cases hc
  rfl

/-- C5 witness: the amended statement at a concrete corrupt archive. -/
theorem c5_witness :
    (⟨some ⟨none, 50⟩, none⟩ : FsState).atPath = some ⟨none, 50⟩ ∧
    (⟨none, 50⟩ : SrcFile).parsed = none ∧
    processOne bigZipEnv (-1) (-1) 75 ⟨some ⟨none, 50⟩, none⟩ =
      .ok ⟨some ⟨some [], bigZipEnv.zipSize []⟩, some ⟨none, 50⟩⟩ :=
  ⟨rfl, rfl,
    c5_corrupt_repacks_empty bigZipEnv (-1) (-1) 75 ⟨some ⟨none, 50⟩, none⟩
      ⟨none, 50⟩ rfl rfl⟩

/-! ### Extraction lemmas -/

/-- A path that stays inside the extraction root: relative (no empty
component, as a leading `'/'` would produce) and with no
current/parent-directory component. -/
def insideRoot (p : Path) : Prop :=
  ∀ c ∈ p, c ≠ "" ∧ c ≠ "." ∧ c ≠ ".."

instance (p : Path) : Decidable (insideRoot p) := by
  unfold insideRoot; infer_instance

theorem sanitizeName_insideRoot (n : Path) : insideRoot (sanitizeName n) := by
  intro c hc
  exact of_decide_eq_true (List.mem_filter.mp hc).2

theorem mem_ancestors_sub :
    ∀ p q : Path, q ∈ ancestors p → ∀ c ∈ q, c ∈ p := by
  intro p
  induction p with
  | nil => intro q hq; simp [ancestors] at hq
  | cons a rest ih =>
    intro q hq c hc
    cases rest with
    | nil => simp [ancestors] at hq
    | cons b rest2 =>
      simp only [ancestors, List.mem_cons, List.mem_map] at hq
      rcases hq with rfl | ⟨q', hq', rfl⟩
      · rcases List.mem_singleton.mp hc with rfl
        exact List.mem_cons_self _ _
      · rcases List.mem_cons.mp hc with rfl | hc2
        · exact List.mem_cons_self _ _
        · exact List.mem_cons_of_mem _ (ih q' hq' c hc2)

theorem ancestors_insideRoot {p : Path} (hp : insideRoot p) {q : Path}
    (hq : q ∈ ancestors p) : insideRoot q :=
  fun c hc => hp c (mem_ancestors_sub p q hq c hc)

/-- The possible outcomes of one successful extraction step: the entry was
skipped as a duplicate, or its (sanitised) path was new and it was
materialised together with its intermediate directories. -/
theorem extractEntry_ok_cases {t : Tree} {e : Path × FileData} {t' : Tree}
    (h : extractEntry t e = .ok t') :
    t' = t ∨
    (pathExists t (sanitizeName e.1) = false ∧
      t' = ⟨t.files ++ [(sanitizeName e.1, e.2)],
            t.dirs ++ ancestors (sanitizeName e.1)⟩) := by
  unfold extractEntry at h
  split at h
  · cases h
  · dsimp only at h
    split at h
    · cases h; exact Or.inl rfl
    · split at h
      · cases h
      · split at h
        · cases h
        · rename_i hb hp hie hcf
          cases h
          exact Or.inr ⟨by simpa using hp, rfl⟩

/-- Containment invariant: extraction only ever adds sanitised paths and
their ancestors to the working tree. -/
theorem extractList_insideRoot (es : List (Path × FileData)) :
    ∀ t : Tree,
      (∀ f ∈ t.files, insideRoot f.1) → (∀ p ∈ t.dirs, insideRoot p) →
      (∀ f ∈ (extractList t es).1.files, insideRoot f.1) ∧
      (∀ p ∈ (extractList t es).1.dirs, insideRoot p) := by
  induction es with
  | nil => intro t hf hd; exact ⟨hf, hd⟩
  | cons e rest ih =>
    intro t hf hd
    rw [extractList]
    cases he : extractEntry t e with
    | error err => exact ⟨hf, hd⟩
    | ok t' =>
      rcases extractEntry_ok_cases he with rfl | ⟨_, rfl⟩
      · exact ih _ hf hd
      · refine ih _ ?_ ?_
        · intro f hfm
          rcases List.mem_append.mp hfm with h1 | h2
          · exact hf f h1
          · rcases List.mem_singleton.mp h2 with rfl
            exact sanitizeName_insideRoot e.1
        · intro p hpm
          rcases List.mem_append.mp hpm with h1 | h2
          · exact hd p h1
          · exact ancestors_insideRoot (sanitizeName_insideRoot e.1) h2

/-- A member name failing the security check makes the extraction loop
raise at once: the tree is left as it was and no later entry is
processed. -/
theorem extractList_security_abort {t : Tree} {e : Path × FileData}
    (es : List (Path × FileData)) (h : badName e.1 = true) :
    extractList t (e :: es) = (t, some .security) := by
  have he : extractEntry t e = .error .security := by
    unfold extractEntry
    simp [h]
  rw [extractList, he]

/-! ### C3 — path traversal -/

/-- C3 counterexample: on an archive whose first entry is `../evil`
followed by a well-formed entry `good`, extraction aborts with the
uncaught `SecurityException` (sanitize.py:83) and `good` is never
materialised — processing does not continue for the remaining entries,
contrary to the claim. -/
theorem c3_counterexample :
    extractList emptyTree
        [(["..", "evil"], FileData.nonImage [0]),
         (["good"], FileData.nonImage [1])] =
      (emptyTree, some .security) ∧
    (["good"], FileData.nonImage [1]) ∉
      (extractList emptyTree
        [(["..", "evil"], FileData.nonImage [0]),
         (["good"], FileData.nonImage [1])]).1.files :=
  ⟨rfl, by decide⟩

/-- C3 (amended): nothing is ever written outside the working directory —
every file and directory the extraction creates has a sanitised relative
path — but an absolute or parent-directory entry name makes extraction
raise `SecurityException` at that entry, so the remaining entries of the
archive are not processed (and, uncaught in `main`, the batch aborts). -/
theorem c3_containment_and_abort :
    (∀ es : List (Path × FileData),
      (∀ f ∈ (extractList emptyTree es).1.files, insideRoot f.1) ∧
      (∀ p ∈ (extractList emptyTree es).1.dirs, insideRoot p)) ∧
    (∀ (t : Tree) (e : Path × FileData) (es : List (Path × FileData)),
      badName e.1 = true → extractList t (e :: es) = (t, some .security)) := by
  constructor
  · intro es
    refine extractList_insideRoot es emptyTree ?_ ?_ <;>
      · intro x hx
        simp [emptyTree] at hx
  · intro t e es h
    exact extractList_security_abort es h

/-- C3 witness: the containment conjunct on a concrete two-component
entry, and the abort conjunct on the concrete name `../evil`. -/
theorem c3_witness :
    badName ["..", "evil"] = true ∧
    extractList emptyTree [(["..", "evil"], FileData.nonImage [0])] =
      (emptyTree, some .security) ∧
    (∀ f ∈ (extractList emptyTree
        [(["a", "b"], FileData.nonImage [1])]).1.files, insideRoot f.1) :=
  ⟨by decide,
    c3_containment_and_abort.2 emptyTree (["..", "evil"], .nonImage [0]) []
      (by decide),
    (c3_containment_and_abort.1 [(["a", "b"], .nonImage [1])]).1⟩

/-! ### Duplicate handling lemmas -/

/-- A member name that passes the security check, survives `zipfile`'s
sanitisation unchanged and resolves to a nonempty relative path: no
component is `''`, `'.'` or `'..'` and none begins with two dots (the
security check fires on a first component that does). -/
def cleanName (n : Path) : Prop :=
  n ≠ [] ∧ ∀ c ∈ n, c ≠ "" ∧ c ≠ "." ∧ c ≠ ".." ∧ startsDotDot c = false

instance (n : Path) : Decidable (cleanName n) := by
  unfold cleanName; infer_instance

theorem cleanName_badName {n : Path} (h : cleanName n) : badName n = false := by
  obtain ⟨hne, hall⟩ := h
  cases n with
  | nil => rfl
  | cons c rest =>
    have hc := hall c (List.mem_cons_self c rest)
    simp [badName, hc.1, hc.2.2.2]

theorem cleanName_sanitize {n : Path} (h : cleanName n) : sanitizeName n = n := by
  apply List.filter_eq_self.mpr
  intro c hc
  have hx := h.2 c hc
  exact decide_eq_true ⟨hx.1, hx.2.1, hx.2.2.1⟩

theorem pathExists_of_mem {t : Tree} {p : Path} {d : FileData}
    (h : (p, d) ∈ t.files) : pathExists t p = true := by
  simp only [pathExists, Bool.or_eq_true, List.any_eq_true]
  exact Or.inl ⟨(p, d), h, by simp⟩

theorem pathExists_mono {t : Tree} {fs2 : List (Path × FileData)}
    {ds2 : List Path} {p : Path} (h : pathExists t p = true) :
    pathExists ⟨t.files ++ fs2, t.dirs ++ ds2⟩ p = true := by
  simp only [pathExists, List.any_append, Bool.or_eq_true] at h ⊢
  tauto

/-- The data of the first entry in archive-enumeration order whose name is
`p`. -/
def findFirst (es : List (Path × FileData)) (p : Path) : Option FileData :=
  (es.find? (fun e => decide (e.1 = p))).map Prod.snd

/-- First-occurrence-wins: any file materialised by extraction over clean
names either was already in the tree, or its path was fresh and its data
is that of the first entry bearing the name. -/
theorem extractList_mem_files (es : List (Path × FileData))
    (hclean : ∀ e ∈ es, cleanName e.1) :
    ∀ (t : Tree) (p : Path) (d : FileData),
      (p, d) ∈ (extractList t es).1.files →
      (p, d) ∈ t.files ∨
        (pathExists t p = false ∧ findFirst es p = some d) := by
  induction es with
  | nil => intro t p d h; exact Or.inl h
  | cons e rest ih =>
    intro t p d h
    have hce := hclean e (List.mem_cons_self e rest)
    have hbn : badName e.1 = false := cleanName_badName hce
    have hsn : sanitizeName e.1 = e.1 := cleanName_sanitize hce
    have hrest : ∀ x ∈ rest, cleanName x.1 :=
      fun x hx => hclean x (List.mem_cons_of_mem e hx)
    have hne' : e.1.isEmpty = false := by
      cases hn : e.1 with
      | nil => exact absurd hn hce.1
      | cons _ _ => rfl
    rw [extractList] at h
    by_cases hex : pathExists t e.1 = true
    · have he : extractEntry t e = .ok t := by
        unfold extractEntry
        simp [hbn, hsn, hex]
      rw [he] at h
      rcases ih hrest t p d h with h1 | ⟨h2, h3⟩
      · exact Or.inl h1
      · have hne : ¬ e.1 = p := by
          rintro rfl
          rw [hex] at h2
          cases h2
        refine Or.inr ⟨h2, ?_⟩
        rw [findFirst, List.find?_cons_of_neg, ← findFirst]
        · exact h3
        · simpa using hne
    · have hexf : pathExists t e.1 = false := by simpa using hex
      by_cases hcf : (ancestors e.1).any (fun q => isFile t q) = true
      · -- the entry's write raises: the loop stops with the tree as it was
        have he : extractEntry t e = .error .notADirErr := by
          unfold extractEntry
          simp [hbn, hsn, hexf, hne', hcf]
        rw [he] at h
        exact Or.inl h
      have hcf' : (ancestors e.1).any (fun q => isFile t q) = false := by
        simpa using hcf
      have he : extractEntry t e =
          .ok ⟨t.files ++ [(e.1, e.2)], t.dirs ++ ancestors e.1⟩ := by
        unfold extractEntry
        simp [hbn, hsn, hexf, hne', hcf']
      rw [he] at h
      rcases ih hrest _ p d h with h1 | ⟨h2, h3⟩
      · rcases List.mem_append.mp h1 with h1a | h1b
        · exact Or.inl h1a
        · have hpd := List.mem_singleton.mp h1b
          injection hpd with hp hd
          subst hp; subst hd
          refine Or.inr ⟨hexf, ?_⟩
          rw [findFirst, List.find?_cons_of_pos]
          · rfl
          · simp
      · have h2t : pathExists t p = false := by
          by_contra hcon
          have : pathExists t p = true := by
            cases hv : pathExists t p
            · exact absurd hv hcon
            · rfl
          rw [pathExists_mono this] at h2
          cases h2
        have hne : ¬ e.1 = p := by
          rintro rfl
          have : pathExists (⟨t.files ++ [(e.1, e.2)],
              t.dirs ++ ancestors e.1⟩ : Tree) e.1 = true :=
            pathExists_of_mem (d := e.2) (by simp)
          rw [this] at h2
          cases h2
        refine Or.inr ⟨h2t, ?_⟩
        rw [findFirst, List.find?_cons_of_neg, ← findFirst]
        · exact h3
        · simpa using hne

/-- Extraction never materialises two files at the same path. -/
theorem extractList_nodup (es : List (Path × FileData)) :
    ∀ t : Tree, (t.files.map Prod.fst).Nodup →
      ((extractList t es).1.files.map Prod.fst).Nodup := by
  induction es with
  | nil => intro t h; exact h
  | cons e rest ih =>
    intro t h
    rw [extractList]
    cases he : extractEntry t e with
    | error err => exact h
    | ok t' =>
      rcases extractEntry_ok_cases he with rfl | ⟨hex, rfl⟩
      · exact ih _ h
      · refine ih _ ?_
        rw [List.map_append, List.nodup_append]
        refine ⟨h, List.nodup_singleton _, ?_⟩
        intro q hq hq2
        rcases List.mem_singleton.mp hq2 with rfl
        obtain ⟨f, hf, hf1⟩ := List.mem_map.mp hq
        have : pathExists t (sanitizeName e.1) = true := by
          simp only [pathExists, Bool.or_eq_true, List.any_eq_true]
          exact Or.inl ⟨f, hf, by simp [hf1]⟩
        rw [this] at hex
        cases hex

/-- Extraction only ever appends to the working tree: a materialised file
stays materialised. -/
theorem extractList_files_mono (es : List (Path × FileData)) :
    ∀ (t : Tree) (f : Path × FileData), f ∈ t.files →
      f ∈ (extractList t es).1.files := by
  induction es with
  | nil => intro t f hf; exact hf
  | cons e rest ih =>
    intro t f hf
    rw [extractList]
    cases he : extractEntry t e with
    | error err => exact hf
    | ok t' =>
      rcases extractEntry_ok_cases he with rfl | ⟨_, rfl⟩
      · exact ih _ f hf
      · exact ih _ f (List.mem_append.mpr (Or.inl hf))

theorem isFile_extend_false {t : Tree} {nf : Path × FileData}
    {nds : List Path} {q : Path} (h1 : isFile t q = false) (h2 : nf.1 ≠ q) :
    isFile ⟨t.files ++ [nf], t.dirs ++ nds⟩ q = false := by
  cases hv : isFile ⟨t.files ++ [nf], t.dirs ++ nds⟩ q with
  | false => rfl
  | true =>
    exfalso
    simp only [isFile, List.any_eq_true, List.mem_append, List.mem_singleton,
      decide_eq_true_eq] at hv
    have h1' : ¬ (isFile t q = true) := by simp [h1]
    simp only [isFile, List.any_eq_true, decide_eq_true_eq] at h1'
    rcases hv with ⟨f, hf | hf, hfq⟩
    · exact h1' ⟨f, hf, hfq⟩
    · subst hf
      exact h2 hfq

theorem pathExists_extend_false {t : Tree} {nf : Path × FileData}
    {nds : List Path} {q : Path} (h1 : pathExists t q = false)
    (h2 : nf.1 ≠ q) (h3 : q ∉ nds) :
    pathExists ⟨t.files ++ [nf], t.dirs ++ nds⟩ q = false := by
  cases hv : pathExists ⟨t.files ++ [nf], t.dirs ++ nds⟩ q with
  | false => rfl
  | true =>
    exfalso
    simp only [pathExists, Bool.or_eq_true, List.any_eq_true, List.mem_append,
      List.mem_singleton, decide_eq_true_eq] at hv
    have h1' : ¬ (pathExists t q = true) := by simp [h1]
    simp only [pathExists, Bool.or_eq_true, List.any_eq_true,
      decide_eq_true_eq] at h1'
    rcases hv with ⟨f, hf | hf, hfq⟩ | ⟨dq, hd | hd, hdq⟩
    · exact h1' (Or.inl ⟨f, hf, hfq⟩)
    · subst hf
      exact h2 hfq
    · exact h1' (Or.inr ⟨dq, hd, hdq⟩)
    · subst hdq
      exact h3 hd

/-- Over clean names whose path set is directory/file-consistent — no
entry name is a proper path-prefix (ancestor) of another entry's name —
the extraction loop never raises, and every name present in the archive
is materialised with the data of its first occurrence, provided its path
is not already taken. -/
theorem extractList_complete (es : List (Path × FileData)) :
    ∀ t : Tree,
      (∀ e ∈ es, cleanName e.1) →
      (∀ e ∈ es, ∀ e' ∈ es, e'.1 ∉ ancestors e.1) →
      (∀ e ∈ es, ∀ q ∈ ancestors e.1, isFile t q = false) →
      (extractList t es).2 = none ∧
      ∀ p d, findFirst es p = some d → pathExists t p = false →
        (p, d) ∈ (extractList t es).1.files := by
  induction es with
  | nil =>
    intro t _ _ _
    refine ⟨rfl, ?_⟩
    intro p d hfd _
    simp [findFirst] at hfd
  | cons e rest ih =>
    intro t hc hpf htf
    have hce := hc e (List.mem_cons_self e rest)
    have hbn : badName e.1 = false := cleanName_badName hce
    have hsn : sanitizeName e.1 = e.1 := cleanName_sanitize hce
    have hne' : e.1.isEmpty = false := by
      cases hn : e.1 with
      | nil => exact absurd hn hce.1
      | cons _ _ => rfl
    have hcr : ∀ x ∈ rest, cleanName x.1 :=
      fun x hx => hc x (List.mem_cons_of_mem e hx)
    have hpfr : ∀ x ∈ rest, ∀ x' ∈ rest, x'.1 ∉ ancestors x.1 :=
      fun x hx x' hx' =>
        hpf x (List.mem_cons_of_mem e hx) x' (List.mem_cons_of_mem e hx')
    have hcf : (ancestors e.1).any (fun q => isFile t q) = false := by
      cases hv : (ancestors e.1).any (fun q => isFile t q) with
      | false => rfl
      | true =>
        exfalso
        obtain ⟨q, hq, hqt⟩ := List.any_eq_true.mp hv
        rw [htf e (List.mem_cons_self e rest) q hq] at hqt
        cases hqt
    by_cases hex : pathExists t e.1 = true
    · have he : extractEntry t e = .ok t := by
        unfold extractEntry
        simp [hbn, hsn, hex]
      rw [extractList, he]
      have IH := ih t hcr hpfr (fun x hx => htf x (List.mem_cons_of_mem e hx))
      refine ⟨IH.1, ?_⟩
      intro p d hfd hpe
      have hnep : ¬ e.1 = p := by
        rintro rfl
        rw [hex] at hpe
        cases hpe
      rw [findFirst, List.find?_cons_of_neg, ← findFirst] at hfd
      · exact IH.2 p d hfd hpe
      · simpa using hnep
    · have hexf : pathExists t e.1 = false := by simpa using hex
      have he : extractEntry t e =
          .ok ⟨t.files ++ [(e.1, e.2)], t.dirs ++ ancestors e.1⟩ := by
        unfold extractEntry
        simp [hbn, hsn, hexf, hne', hcf]
      rw [extractList, he]
      have htfr : ∀ x ∈ rest, ∀ q ∈ ancestors x.1,
          isFile ⟨t.files ++ [(e.1, e.2)], t.dirs ++ ancestors e.1⟩ q = false := by
        intro x hx q hq
        refine isFile_extend_false (htf x (List.mem_cons_of_mem e hx) q hq) ?_
        intro hq2
        exact hpf x (List.mem_cons_of_mem e hx) e (List.mem_cons_self e rest)
          (hq2 ▸ hq)
      have IH := ih _ hcr hpfr htfr
      refine ⟨IH.1, ?_⟩
      intro p d hfd hpe
      by_cases hep : e.1 = p
      · subst hep
        have hd2 : e.2 = d := by
          simpa [findFirst] using hfd
        subst hd2
        exact extractList_files_mono rest _ (e.1, e.2) (by simp)
      · rw [findFirst, List.find?_cons_of_neg, ← findFirst] at hfd
        · have hpn : ∃ x ∈ rest, x.1 = p := by
            unfold findFirst at hfd
            cases hfr : rest.find? (fun x => decide (x.1 = p)) with
            | none => rw [hfr] at hfd; cases hfd
            | some pr =>
              have hm := List.mem_of_find?_eq_some hfr
              have hp := List.find?_some hfr
              exact ⟨pr, hm, by simpa using hp⟩
          obtain ⟨pr, hpr, hprp⟩ := hpn
          have hpe' : pathExists
              ⟨t.files ++ [(e.1, e.2)], t.dirs ++ ancestors e.1⟩ p = false := by
            refine pathExists_extend_false hpe hep ?_
            intro hpd
            exact hpf e (List.mem_cons_self e rest) pr
              (List.mem_cons_of_mem e hpr) (hprp.symm ▸ hpd)
          exact IH.2 p d hfd hpe'
        · simpa using hep

/-- The write-failure path demonstrated: in the archive `[a, a/b]` the
file `a` is materialised, and the entry `a/b` then crashes extraction with
the uncaught `NotADirectoryError` — the file at `a` blocks the directory
`a`, and the duplicate check does not fire because `os.path.exists` is
false below a file. -/
theorem extractList_file_blocks_dir :
    extractList emptyTree
        [(["a"], FileData.nonImage [1]), (["a", "b"], FileData.nonImage [2])] =
      (⟨[(["a"], FileData.nonImage [1])], []⟩, some .notADirErr) := rfl

/-! ### C9 — duplicate entries -/

/-- C9 counterexample.  First conjunct: the archive
`[n/y, n, n]` has two entries named `n`, yet neither is materialised —
extracting `n/y` creates the directory `n`, whose existence makes the
`os.path.exists` duplicate check (sanitize.py:84) skip both — so it is
not the case that exactly one survives.  Second conjunct: an archive with
two entries named `../e` (N = 2 occurrences of one name) crashes the
pipeline with the uncaught `SecurityException`, so the pipeline does not
"never crash" on duplicate-bearing input. -/
theorem c9_counterexample :
    (extractList emptyTree
        [(["n", "y"], FileData.nonImage [1]), (["n"], FileData.nonImage [2]),
         (["n"], FileData.nonImage [3])]).1.files =
      [(["n", "y"], FileData.nonImage [1])] ∧
    processOne bigZipEnv (-1) (-1) 75
        ⟨some ⟨some [(["..", "e"], .nonImage [1]),
                     (["..", "e"], .nonImage [2])], 10⟩, none⟩ =
      .error .security :=
  ⟨rfl, rfl⟩

/-- C9 (amended): for archives whose entry names pass the security check,
survive sanitisation unchanged, and are directory/file-consistent — no
entry name is a proper path-prefix of another entry's name — extraction
never raises and exactly one file per name is materialised: the first
occurrence in archive enumeration order, with its data; later occurrences
are always skipped.  (Outside these conditions the pipeline can crash — a
duplicated traversal name, or a file blocking a directory as in
`extractList_file_blocks_dir` — or a directory can shadow a name so that
no occurrence is materialised.) -/
theorem c9_first_wins (es : List (Path × FileData))
    (hclean : ∀ e ∈ es, cleanName e.1)
    (hflat : ∀ e ∈ es, ∀ e' ∈ es, e'.1 ∉ ancestors e.1) :
    (extractList emptyTree es).2 = none ∧
    ((extractList emptyTree es).1.files.map Prod.fst).Nodup ∧
    (∀ (p : Path) (d : FileData),
      (p, d) ∈ (extractList emptyTree es).1.files → findFirst es p = some d) ∧
    (∀ (p : Path) (d : FileData),
      findFirst es p = some d →
        (p, d) ∈ (extractList emptyTree es).1.files) := by
  have hcomp := extractList_complete es emptyTree hclean hflat
    (fun _ _ _ _ => rfl)
  refine ⟨hcomp.1, extractList_nodup es emptyTree (by simp [emptyTree]),
    ?_, ?_⟩
  · intro p d h
    rcases extractList_mem_files es hclean emptyTree p d h with h1 | ⟨_, h2⟩
    · simp [emptyTree] at h1
    · exact h2
  · intro p d h
    exact hcomp.2 p d h rfl

/-- C9 witness: a concrete prefix-free archive with a duplicated clean
name `a`: no error, unique materialised paths, and the name is
materialised with exactly the first occurrence's data. -/
theorem c9_witness :
    (∀ e ∈ [((["a"] : Path), FileData.nonImage [1]),
            (["a"], FileData.nonImage [2])], cleanName e.1) ∧
    (∀ e ∈ [((["a"] : Path), FileData.nonImage [1]),
            (["a"], FileData.nonImage [2])],
      ∀ e' ∈ [((["a"] : Path), FileData.nonImage [1]),
            (["a"], FileData.nonImage [2])], e'.1 ∉ ancestors e.1) ∧
    (extractList emptyTree [((["a"] : Path), FileData.nonImage [1]),
        (["a"], FileData.nonImage [2])]).2 = none ∧
    ((extractList emptyTree [((["a"] : Path), FileData.nonImage [1]),
        (["a"], FileData.nonImage [2])]).1.files.map Prod.fst).Nodup ∧
    findFirst [((["a"] : Path), FileData.nonImage [1]),
        (["a"], FileData.nonImage [2])] ["a"] = some (FileData.nonImage [1]) ∧
    (["a"], FileData.nonImage [1]) ∈
      (extractList emptyTree [((["a"] : Path), FileData.nonImage [1]),
        (["a"], FileData.nonImage [2])]).1.files :=
  ⟨by decide, by decide,
    (c9_first_wins _ (by decide) (by decide)).1,
    (c9_first_wins _ (by decide) (by decide)).2.1,
    (c9_first_wins _ (by decide) (by decide)).2.2.1 ["a"]
      (FileData.nonImage [1]) (by decide),
    (c9_first_wins _ (by decide) (by decide)).2.2.2 ["a"]
      (FileData.nonImage [1]) (by decide)⟩

/-! ### C6 — error containment -/

/-- An environment whose encoder can re-emit no format at all:
`img.save` raises on every image. -/
def noEmitEnv : Env :=
  ⟨fun _ _ => none, fun im _ _ => im.px, fun _ => 999⟩

/-- C6 counterexample: a single image whose format the encoder cannot
re-emit does not merely fail that file — the uncaught exception from
`img.save` (sanitize.py:127) aborts the whole batch, and the second,
perfectly processable archive is never touched. -/
theorem c6_counterexample :
    runBatch noEmitEnv (-1) (-1) 75
        [⟨some ⟨some [(["p.jpg"], .image ⟨100, 100, 0, 0, 50⟩)], 60⟩, none⟩,
         ⟨some ⟨some [(["q.txt"], .nonImage [1])], 20⟩, none⟩] =
      ([], some .saveErr) ∧
    processOne noEmitEnv (-1) (-1) 75
        ⟨some ⟨some [(["q.txt"], .nonImage [1])], 20⟩, none⟩ =
      .ok ⟨some ⟨some [(["q.txt"], .nonImage [1])], 999⟩,
           some ⟨some [(["q.txt"], .nonImage [1])], 20⟩⟩ :=
  ⟨rfl, rfl⟩

/-- C6 (amended): decode failures (non-image members) and corrupt
archives are contained — the walk and the batch continue — but an error
actually raised (a traversal name, an un-re-emittable image) aborts the
whole batch: the failing archive's loop iteration is the last one run. -/
theorem c6_containment_scope :
    (∀ (env : Env) (mx my : Int) (q : Nat) (bs : List Nat),
      resizeFile env mx my q (.nonImage bs) = .ok (.nonImage bs)) ∧
    (∀ (env : Env) (mx my : Int) (q : Nat) (fs : FsState) (src : SrcFile),
      fs.atPath = some src → src.parsed = none →
      ∃ fs', processOne env mx my q fs = .ok fs') ∧
    (∀ (env : Env) (mx my : Int) (q : Nat) (fs : FsState)
        (rest : List FsState) (e : PErr),
      processOne env mx my q fs = .error e →
      runBatch env mx my q (fs :: rest) = ([], some e)) := by
  refine ⟨fun env mx my q bs => rfl, ?_, ?_⟩
  · intro env mx my q fs src h hc
    refine ⟨⟨some ⟨some [], env.zipSize []⟩, some src⟩, ?_⟩
    obtain ⟨ap, ab⟩ := fs
    cases h
    obtain ⟨pr, b⟩ := src
    cases hc
    rfl
  · intro env mx my q fs rest e h
    rw [runBatch, h]

/-- C6 witness: each conjunct at concrete inputs — a kept non-image, a
contained corrupt archive, and a batch aborted by an encoder failure. -/
theorem c6_witness :
    resizeFile noEmitEnv (-1) (-1) 75 (.nonImage [9]) = .ok (.nonImage [9]) ∧
    (∃ fs', processOne noEmitEnv (-1) (-1) 75 ⟨some ⟨none, 50⟩, none⟩ = .ok fs') ∧
    (processOne noEmitEnv (-1) (-1) 75
        ⟨some ⟨some [(["p.jpg"], .image ⟨100, 100, 0, 0, 50⟩)], 60⟩, none⟩ =
      .error .saveErr ∧
     runBatch noEmitEnv (-1) (-1) 75
        [⟨some ⟨some [(["p.jpg"], .image ⟨100, 100, 0, 0, 50⟩)], 60⟩, none⟩] =
      ([], some .saveErr)) :=
  ⟨c6_containment_scope.1 noEmitEnv (-1) (-1) 75 [9],
    c6_containment_scope.2.1 noEmitEnv (-1) (-1) 75 ⟨some ⟨none, 50⟩, none⟩
      ⟨none, 50⟩ rfl rfl,
    rfl,
    c6_containment_scope.2.2 noEmitEnv (-1) (-1) 75
      ⟨some ⟨some [(["p.jpg"], .image ⟨100, 100, 0, 0, 50⟩)], 60⟩, none⟩ []
      .saveErr rfl⟩

/-! ### C7 — re-encode always, keep-if-smaller, idempotence when kept -/

/-- The acceptance behaviour of the resize step for one decodable image
whose re-encode at quality `q` yields a candidate of `s` bytes: the result
is the candidate iff it is strictly smaller than the original, the
candidate of an already-fitting image is the unresized image itself, and
when the candidate is not strictly smaller the file is unchanged and a
rerun leaves it unchanged again. -/
def acceptanceSpec (env : Env) (mx my : Int) (q : Nat) (im : ImgFile)
    (s : Nat) : Prop :=
  (resizeFile env mx my q (.image im) =
    .ok (.image (if s < im.size
      then { candidateImg env mx my im with size := s } else im))) ∧
  (fitsBox mx my im.width im.height = true → candidateImg env mx my im = im) ∧
  (im.size ≤ s →
    resizeFile env mx my q (.image im) = .ok (.image im) ∧
    ∀ d, resizeFile env mx my q (.image im) = .ok d →
      resizeFile env mx my q d = .ok d)

/-- C7: for every decodable image a re-encoded candidate at the configured
quality is produced even when the image already fits (the candidate is
then the unresized image), and the original is replaced by the candidate
iff the candidate is strictly smaller in bytes (sanitize.py:127–133);
otherwise the original is untouched and reprocessing it is a no-op. -/
theorem c7_acceptance_rule (env : Env) (mx my : Int) (q : Nat) (im : ImgFile)
    (s : Nat) (h : env.encode (candidateImg env mx my im) q = some s) :
    acceptanceSpec env mx my q im s := by
  have hmain : resizeFile env mx my q (.image im) =
      .ok (.image (if s < im.size
        then { candidateImg env mx my im with size := s } else im)) := by
    rw [resizeFile]
    rw [h]
    dsimp only
    by_cases hle : im.size ≤ s
    · rw [if_pos hle, if_neg (Nat.not_lt.mpr hle)]
    · rw [if_neg hle, if_pos (Nat.lt_of_not_le hle)]
  refine ⟨hmain, ?_, ?_⟩
  · intro hf
    simp [candidateImg, resizeDims, hf]
  · intro hle
    have hkeep : resizeFile env mx my q (.image im) = .ok (.image im) := by
      rw [hmain, if_neg (Nat.not_lt.mpr hle)]
    refine ⟨hkeep, ?_⟩
    intro d hd
    rw [hkeep] at hd
    cases hd
    exact hkeep

/-- C7 witness: a 2000×1000 image of 100 bytes with no constrained axis;
the re-encode yields 101 bytes, so the original is kept and a rerun keeps
it again. -/
theorem c7_witness :
    bigZipEnv.encode
        (candidateImg bigZipEnv (-1) (-1) ⟨2000, 1000, 0, 0, 100⟩) 75 =
      some 101 ∧
    acceptanceSpec bigZipEnv (-1) (-1) 75 ⟨2000, 1000, 0, 0, 100⟩ 101 :=
  ⟨rfl, c7_acceptance_rule bigZipEnv (-1) (-1) 75 ⟨2000, 1000, 0, 0, 100⟩ 101 rfl⟩

/-! ### Arithmetic of the thumbnail rounding -/

theorem cdiv_le {a b c : Nat} (hb : 0 < b) (h : a ≤ b * c) : cdiv a b ≤ c := by
  unfold cdiv
  rw [Nat.div_le_iff_le_mul_add_pred hb]
  omega

theorem div_le_cdiv (a b : Nat) : a / b ≤ cdiv a b := by
  cases b with
  | zero => simp [cdiv]
  | succ b' => exact Nat.div_le_div_right (by omega)

theorem cdiv_mod {a b : Nat} (hb : 0 < b) (h : a % b ≠ 0) :
    cdiv a b = a / b + 1 := by
  unfold cdiv
  have h1 := Nat.div_add_mod a b
  have h2 : a % b < b := Nat.mod_lt _ hb
  have h4 : b * (a / b + 1) = b * (a / b) + b := by
    rw [Nat.mul_add, Nat.mul_one]
  have h3 : a + b - 1 = (a % b - 1) + b * (a / b + 1) := by omega
  rw [h3, Nat.add_mul_div_left _ _ hb, Nat.div_eq_of_lt (by omega)]
  omega

theorem cdiv_one_of {a b : Nat} (h1 : 0 < a) (h2 : a ≤ b) : cdiv a b = 1 := by
  unfold cdiv
  have hb : 0 < b := Nat.lt_of_lt_of_le h1 h2
  have h3 : a + b - 1 = (a - 1) + b * 1 := by omega
  rw [h3, Nat.add_mul_div_left _ _ hb, Nat.div_eq_of_lt (by omega)]

theorem roundAspectW_cases (w h bh : Nat) (hh : 0 < h) (ha : 0 < bh * w) :
    roundAspectW w h bh = bh * w / h ∨ roundAspectW w h bh = cdiv (bh * w) h := by
  have hdm := Nat.div_add_mod (bh * w) h
  unfold roundAspectW
  dsimp only
  by_cases hm : bh * w % h = 0
  · have hd : 0 < bh * w / h := by
      rcases Nat.eq_zero_or_pos (bh * w / h) with h0 | h0
      · rw [h0, Nat.mul_zero] at hdm
        omega
      · exact h0
    rw [if_pos (by omega)]
    exact Or.inl (Nat.max_eq_left hd)
  · have hc := cdiv_mod hh hm
    by_cases hcond : 2 * (bh * w % h) ≤ h
    · rw [if_pos hcond]
      rcases Nat.eq_zero_or_pos (bh * w / h) with h0 | h0
      · right
        rw [h0, hc, h0]
        decide
      · exact Or.inl (Nat.max_eq_left h0)
    · rw [if_neg hcond]
      right
      rw [hc]
      exact Nat.max_eq_left (Nat.succ_le_succ (Nat.zero_le _))

theorem roundAspectW_pos (w h bh : Nat) : 0 < roundAspectW w h bh := by
  unfold roundAspectW
  exact Nat.lt_of_lt_of_le Nat.zero_lt_one (Nat.le_max_right _ _)

theorem roundAspectW_le {w h bh c : Nat} (hh : 0 < h) (hc : 0 < c)
    (hle : bh * w ≤ h * c) : roundAspectW w h bh ≤ c := by
  have hcd : cdiv (bh * w) h ≤ c := cdiv_le hh hle
  have h2 := div_le_cdiv (bh * w) h
  unfold roundAspectW
  have hr : (if 2 * (bh * w % h) ≤ h then bh * w / h else bh * w / h + 1) ≤
      cdiv (bh * w) h := by
    by_cases hcond : 2 * (bh * w % h) ≤ h
    · rw [if_pos hcond]; exact h2
    · rw [if_neg hcond]
      have hm : bh * w % h ≠ 0 := by omega
      rw [cdiv_mod hh hm]
  exact max_le (Nat.le_trans hr hcd) hc

theorem roundAspectH_cases (w h bw : Nat) (hw : 0 < w) (ha : 0 < bw * h) :
    roundAspectH w h bw = bw * h / w ∨ roundAspectH w h bw = cdiv (bw * h) w := by
  unfold roundAspectH
  dsimp only
  by_cases h0 : bw * h / w = 0
  · rw [if_pos h0]
    right
    have hdm := Nat.div_add_mod (bw * h) w
    have hml : bw * h % w < w := Nat.mod_lt _ hw
    rw [h0, Nat.mul_zero] at hdm
    exact (cdiv_one_of ha (by omega)).symm
  · rw [if_neg h0]
    by_cases heq : bw * h / w = cdiv (bw * h) w
    · rw [if_pos heq]; exact Or.inl rfl
    · rw [if_neg heq]
      by_cases hsel : (bw * h % w) * cdiv (bw * h) w ≤
          (w - bw * h % w) * (bw * h / w)
      · rw [if_pos hsel]; exact Or.inl rfl
      · rw [if_neg hsel]; exact Or.inr rfl

theorem roundAspectH_pos (w h bw : Nat) : 0 < roundAspectH w h bw := by
  unfold roundAspectH
  dsimp only
  split
  · omega
  · rename_i h0
    have h1 : 0 < bw * h / w := Nat.pos_of_ne_zero h0
    have h2 := div_le_cdiv (bw * h) w
    split
    · omega
    · split <;> omega

theorem roundAspectH_le {w h bw c : Nat} (hw : 0 < w) (hc : 0 < c)
    (hle : bw * h ≤ w * c) : roundAspectH w h bw ≤ c := by
  have hcd : cdiv (bw * h) w ≤ c := cdiv_le hw hle
  have h2 := div_le_cdiv (bw * h) w
  unfold roundAspectH
  dsimp only
  split
  · omega
  · split
    · omega
    · split <;> omega

/-! ### Evaluations of the box and thumbnail functions -/

theorem minPos_limited (limit : Int) (dim : Nat) (h1 : 0 < limit)
    (h2 : limit < (dim : Int)) : minPos limit dim = limit.toNat := by
  unfold minPos
  rw [if_pos ⟨h1, h2⟩]

theorem minPos_free (limit : Int) (dim : Nat)
    (h : ¬(0 < limit ∧ limit < (dim : Int))) : minPos limit dim = dim := by
  unfold minPos
  rw [if_neg h]

theorem thumbDims_xlimited (w h bw : Nat) (hh : 0 < h) (hxw : bw < w) :
    thumbDims w h bw h = (bw, roundAspectH w h bw) := by
  unfold thumbDims
  rw [if_neg (by intro hcon; omega)]
  rw [if_neg (by
    intro hcon
    rw [Nat.mul_comm bw h] at hcon
    exact absurd (Nat.le_of_mul_le_mul_left hcon hh) (by omega))]

theorem thumbDims_ylimited (w h bh : Nat) (_hw : 0 < w) (hyh : bh < h) :
    thumbDims w h w bh = (roundAspectW w h bh, bh) := by
  unfold thumbDims
  rw [if_neg (by intro hcon; omega)]
  rw [if_pos (by
    rw [Nat.mul_comm bh w]
    exact Nat.mul_le_mul_left w (by omega))]

theorem thumbDims_both (w h bw bh : Nat) (hxw : bw < w) :
    thumbDims w h bw bh =
      if bh * w ≤ bw * h then (roundAspectW w h bh, bh)
      else (bw, roundAspectH w h bw) := by
  unfold thumbDims
  rw [if_neg (by intro hcon; omega)]

theorem thumbDims_pos {w h bw bh : Nat} (hw : 0 < w) (hh : 0 < h)
    (hbw : 0 < bw) (hbh : 0 < bh) :
    0 < (thumbDims w h bw bh).1 ∧ 0 < (thumbDims w h bw bh).2 := by
  unfold thumbDims
  split
  · exact ⟨hw, hh⟩
  · split
    · exact ⟨roundAspectW_pos w h bh, hbh⟩
    · exact ⟨hbw, roundAspectH_pos w h bw⟩

theorem fitsBox_false {mx my : Int} {w h : Nat}
    (hfit : fitsBox mx my w h = false) :
    (0 < mx ∧ (mx : Int) < w) ∨ (0 < my ∧ (my : Int) < h) := by
  have hx : ¬ ((mx ≤ 0 ∨ (w : Int) ≤ mx) ∧ (my ≤ 0 ∨ (h : Int) ≤ my)) := by
    intro hcon
    have ht : fitsBox mx my w h = true := by
      simp only [fitsBox, Bool.and_eq_true, Bool.or_eq_true, decide_eq_true_eq]
      exact hcon
    rw [ht] at hfit
    cases hfit
  omega

/-! ### C8 — aspect ratio, bounds, limiting axis, no upscaling -/

/-- `n` is the floor or the ceiling of the exact rational `a / b`. -/
def isRound (n a b : Nat) : Prop := n = a / b ∨ n = cdiv a b

/-- The claimed geometry of the dimensions the resize step computes for an
image `(w, h)` that does not fit the box `(mx, my)`: with both axes
constrained the result is bounded by the box and by the original size,
one axis sits exactly at its limit, and the other is the floor or ceiling
of the exact aspect-preserving value scaled from the limiting axis; with
one axis unconstrained, the scale comes from the constrained axis
alone. -/
def c8Spec (mx my : Int) (w h : Nat) : Prop :=
  (0 < mx → 0 < my →
    (resizeDims mx my w h).1 ≤ mx.toNat ∧
    (resizeDims mx my w h).2 ≤ my.toNat ∧
    (resizeDims mx my w h).1 ≤ w ∧
    (resizeDims mx my w h).2 ≤ h ∧
    ((resizeDims mx my w h).1 = mx.toNat ∨
      (resizeDims mx my w h).2 = my.toNat) ∧
    (((resizeDims mx my w h).2 = my.toNat ∧
        isRound (resizeDims mx my w h).1 (my.toNat * w) h) ∨
     ((resizeDims mx my w h).1 = mx.toNat ∧
        isRound (resizeDims mx my w h).2 (mx.toNat * h) w))) ∧
  (my ≤ 0 →
    resizeDims mx my w h = (mx.toNat, roundAspectH w h mx.toNat) ∧
    isRound (roundAspectH w h mx.toNat) (mx.toNat * h) w ∧
    roundAspectH w h mx.toNat ≤ h) ∧
  (mx ≤ 0 →
    resizeDims mx my w h = (roundAspectW w h my.toNat, my.toNat) ∧
    isRound (roundAspectW w h my.toNat) (my.toNat * w) h ∧
    roundAspectW w h my.toNat ≤ w)

/-- C8: for an image exceeding the bounding box, the computed dimensions
respect both limits and the original size (no upscaling), hit at least
one limit exactly, and preserve the aspect ratio within rounding — the
non-limiting axis is the floor or ceiling of the exact rational scale;
with only one axis constrained, the scale factor comes from that axis
alone (sanitize.py:119–126 composed with Pillow's thumbnail rounding). -/
theorem c8_aspect_bounds (mx my : Int) (w h : Nat) (hw : 0 < w) (hh : 0 < h)
    (hfit : fitsBox mx my w h = false) : c8Spec mx my w h := by
  have hnf : ¬ (fitsBox mx my w h = true) := by simp [hfit]
  refine ⟨?_, ?_, ?_⟩
  · intro hmx hmy
    by_cases hx : mx < (w : Int)
    · by_cases hy : my < (h : Int)
      · -- both axes exceeded
        have hres : resizeDims mx my w h =
            if my.toNat * w ≤ mx.toNat * h
            then (roundAspectW w h my.toNat, my.toNat)
            else (mx.toNat, roundAspectH w h mx.toNat) := by
          rw [resizeDims, if_neg hnf, minPos_limited mx w hmx hx,
            minPos_limited my h hmy hy, thumbDims_both w h _ _ (by omega)]
        have hMx1 : 0 < mx.toNat := by omega
        have hMy1 : 0 < my.toNat := by omega
        by_cases hbr : my.toNat * w ≤ mx.toNat * h
        · rw [hres, if_pos hbr]
          dsimp only
          have hMy_h : my.toNat ≤ h := by omega
          have hr1 : roundAspectW w h my.toNat ≤ mx.toNat :=
            roundAspectW_le hh hMx1 (by rw [Nat.mul_comm h mx.toNat]; exact hbr)
          have hr2 : roundAspectW w h my.toNat ≤ w :=
            roundAspectW_le hh hw (Nat.mul_le_mul_right w hMy_h)
          exact ⟨hr1, Nat.le_refl _, hr2, hMy_h, Or.inr rfl,
            Or.inl ⟨rfl, roundAspectW_cases w h my.toNat hh
              (Nat.mul_pos hMy1 hw)⟩⟩
        · rw [hres, if_neg hbr]
          dsimp only
          have hbr' : mx.toNat * h < my.toNat * w := Nat.lt_of_not_le hbr
          have hrh1 : roundAspectH w h mx.toNat ≤ my.toNat :=
            roundAspectH_le hw hMy1
              (by rw [Nat.mul_comm w my.toNat]; exact Nat.le_of_lt hbr')
          have hrh2 : roundAspectH w h mx.toNat ≤ h :=
            roundAspectH_le hw hh (Nat.mul_le_mul_right h (by omega))
          exact ⟨Nat.le_refl _, hrh1, by omega, hrh2, Or.inl rfl,
            Or.inr ⟨rfl, roundAspectH_cases w h mx.toNat hw
              (Nat.mul_pos hMx1 hh)⟩⟩
      · -- only the x axis exceeded
        have hres : resizeDims mx my w h =
            (mx.toNat, roundAspectH w h mx.toNat) := by
          rw [resizeDims, if_neg hnf, minPos_limited mx w hmx hx,
            minPos_free my h (by omega), thumbDims_xlimited w h _ hh (by omega)]
        rw [hres]
        dsimp only
        have hMx1 : 0 < mx.toNat := by omega
        have hrh2 : roundAspectH w h mx.toNat ≤ h :=
          roundAspectH_le hw hh (Nat.mul_le_mul_right h (by omega))
        exact ⟨Nat.le_refl _, by omega, by omega, hrh2, Or.inl rfl,
          Or.inr ⟨rfl, roundAspectH_cases w h mx.toNat hw
            (Nat.mul_pos hMx1 hh)⟩⟩
    · by_cases hy : my < (h : Int)
      · -- only the y axis exceeded
        have hres : resizeDims mx my w h =
            (roundAspectW w h my.toNat, my.toNat) := by
          rw [resizeDims, if_neg hnf, minPos_free mx w (by omega),
            minPos_limited my h hmy hy, thumbDims_ylimited w h _ hw (by omega)]
        rw [hres]
        dsimp only
        have hMy1 : 0 < my.toNat := by omega
        have hMy_h : my.toNat ≤ h := by omega
        have hrw2 : roundAspectW w h my.toNat ≤ w :=
          roundAspectW_le hh hw (Nat.mul_le_mul_right w hMy_h)
        exact ⟨by omega, Nat.le_refl _, hrw2, hMy_h, Or.inr rfl,
          Or.inl ⟨rfl, roundAspectW_cases w h my.toNat hh
            (Nat.mul_pos hMy1 hw)⟩⟩
      · exfalso
        apply hnf
        simp only [fitsBox, Bool.and_eq_true, Bool.or_eq_true, decide_eq_true_eq]
        omega
  · intro hmy0
    rcases fitsBox_false hfit with ⟨hmx, hx⟩ | ⟨hmy, _⟩
    · have hres : resizeDims mx my w h =
          (mx.toNat, roundAspectH w h mx.toNat) := by
        rw [resizeDims, if_neg hnf, minPos_limited mx w hmx hx,
          minPos_free my h (by omega), thumbDims_xlimited w h _ hh (by omega)]
      have hMx1 : 0 < mx.toNat := by omega
      exact ⟨hres,
        roundAspectH_cases w h mx.toNat hw (Nat.mul_pos hMx1 hh),
        roundAspectH_le hw hh (Nat.mul_le_mul_right h (by omega))⟩
    · omega
  · intro hmx0
    rcases fitsBox_false hfit with ⟨hmx, _⟩ | ⟨hmy, hy⟩
    · omega
    · have hres : resizeDims mx my w h =
          (roundAspectW w h my.toNat, my.toNat) := by
        rw [resizeDims, if_neg hnf, minPos_free mx w (by omega),
          minPos_limited my h hmy hy, thumbDims_ylimited w h _ hw (by omega)]
      have hMy1 : 0 < my.toNat := by omega
      exact ⟨hres,
        roundAspectW_cases w h my.toNat hh (Nat.mul_pos hMy1 hw),
        roundAspectW_le hh hw (Nat.mul_le_mul_right w (by omega))⟩

/-- C8 witness: a 200×50 image against the box 100×100 — the width lands
exactly on its limit and the height is rounded from the exact scale. -/
theorem c8_witness :
    0 < 200 ∧ 0 < 50 ∧ fitsBox 100 100 200 50 = false ∧
    c8Spec 100 100 200 50 :=
  ⟨by decide, by decide, by decide,
    c8_aspect_bounds 100 100 200 50 (by decide) (by decide) (by decide)⟩

/-! ### C10 — a parsed limit of 0 behaves exactly like an omitted axis -/

/-- C10: the resize-string grammar admits `0x0` and `x0`, parsing the
axis to `0` (while an omitted group parses to `-1`); in the fits test and
in the target-size computation any two non-positive limits are
interchangeable — a zero limit is treated exactly like an omitted axis —
and the computed dimensions of a positive-size image are always positive,
so no image is ever resized toward a zero dimension
(sanitize.py:33–46, 119–126). -/
theorem c10_zero_axis_unconstrained :
    convert_resize "0x0" = some (0, 0) ∧
    convert_resize "x0" = some (-1, 0) ∧
    convert_resize "x" = some (-1, -1) ∧
    (∀ (a b my : Int) (w h : Nat), a ≤ 0 → b ≤ 0 →
      fitsBox a my w h = fitsBox b my w h ∧
      resizeDims a my w h = resizeDims b my w h) ∧
    (∀ (a b mx : Int) (w h : Nat), a ≤ 0 → b ≤ 0 →
      fitsBox mx a w h = fitsBox mx b w h ∧
      resizeDims mx a w h = resizeDims mx b w h) ∧
    (∀ (mx my : Int) (w h : Nat), 0 < w → 0 < h →
      0 < (resizeDims mx my w h).1 ∧ 0 < (resizeDims mx my w h).2) := by
  refine ⟨by decide, by decide, by decide, ?_, ?_, ?_⟩
  · intro a b my w h ha hb
    have hda : decide (a ≤ 0) = true := decide_eq_true ha
    have hdb : decide (b ≤ 0) = true := decide_eq_true hb
    have h1 : fitsBox a my w h = fitsBox b my w h := by
      simp [fitsBox, hda, hdb]
    refine ⟨h1, ?_⟩
    unfold resizeDims
    rw [h1, minPos_free a w (by omega), minPos_free b w (by omega)]
  · intro a b mx w h ha hb
    have hda : decide (a ≤ 0) = true := decide_eq_true ha
    have hdb : decide (b ≤ 0) = true := decide_eq_true hb
    have h1 : fitsBox mx a w h = fitsBox mx b w h := by
      simp [fitsBox, hda, hdb]
    refine ⟨h1, ?_⟩
    unfold resizeDims
    rw [h1, minPos_free a h (by omega), minPos_free b h (by omega)]
  · intro mx my w h hw hh
    unfold resizeDims
    by_cases hf : fitsBox mx my w h = true
    · rw [if_pos hf]
      exact ⟨hw, hh⟩
    · rw [if_neg hf]
      have hbw : 0 < minPos mx w := by
        unfold minPos
        split <;> omega
      have hbh : 0 < minPos my h := by
        unfold minPos
        split <;> omega
      exact thumbDims_pos hw hh hbw hbh

/-- C10 witness: `0` and `-1` limits give identical behaviour on a
concrete image, and the computed dimensions stay positive. -/
theorem c10_witness :
    ((0 : Int) ≤ 0 ∧ (-1 : Int) ≤ 0) ∧
    (fitsBox 0 100 50 50 = fitsBox (-1) 100 50 50 ∧
      resizeDims 0 100 50 50 = resizeDims (-1) 100 50 50) ∧
    (fitsBox 100 0 50 50 = fitsBox 100 (-1) 50 50 ∧
      resizeDims 100 0 50 50 = resizeDims 100 (-1) 50 50) ∧
    (0 < (resizeDims 1 1 50 50).1 ∧ 0 < (resizeDims 1 1 50 50).2) :=
  ⟨⟨le_refl 0, by decide⟩,
    c10_zero_axis_unconstrained.2.2.2.1 0 (-1) 100 50 50 (le_refl 0) (by decide),
    c10_zero_axis_unconstrained.2.2.2.2.1 0 (-1) 100 50 50 (le_refl 0)
      (by decide),
    c10_zero_axis_unconstrained.2.2.2.2.2 1 1 50 50 (by decide) (by decide)⟩

end Sanitize
